import Mathlib

/-!
Verification of the mosaic-studio core engine.

Shallow embedding of the repository's mosaic transform engine and GIF frame
pipeline: color-mode mapping (`toGray`, `quantize`, `closestPaletteColor`,
`mapColor` from `src/utils/mosaic.ts`), the ASCII glyph selection of
`drawShape` (shape-enabled engine), the frame transform `processFrame`
(`src/utils/mosaic.ts`), the delay computation of `parseGif`
(`src/utils/gif.ts`), and the options constructor `getMosaicOpts`
(`App.tsx`).

JavaScript `number` arithmetic on the small values involved is modelled by
exact rational arithmetic (`ℚ`); `Math.round x` is `⌊x + 1/2⌋` and
`Math.floor` is `⌊·⌋`, matching the JS semantics for the non-negative
values that occur here.
-/

/-- An RGB triple.  Channels are integers (0-255 in well-formed inputs). -/
abbrev RGB := ℤ × ℤ × ℤ

/-- `type ColorMode = 'grayscale' | 'color' | 'palette'` -/
inductive ColorMode where
  | grayscale
  | color
  | palette
deriving DecidableEq, Repr

/-- `interface Palette { name; colors }` -/
structure Palette where
  name : String
  colors : List RGB
deriving DecidableEq, Repr

/-- `interface MosaicOptions { pixelSize; colorMode; levels; palette? }`
(`src/utils/mosaic.ts`). -/
structure MosaicOptions where
  pixelSize : ℕ
  colorMode : ColorMode
  levels : ℕ
  palette : Option Palette
deriving DecidableEq, Repr

/-- `DEFAULT_OPTIONS` from `src/utils/mosaic.ts`. -/
def DEFAULT_OPTIONS : MosaicOptions :=
  { pixelSize := 8, colorMode := .grayscale, levels := 4, palette := none }

/-- The built-in `PALETTES` constant, with the exact colors of the source. -/
def PALETTES : List Palette :=
  [ { name := "Game Boy",
      colors := [(15, 56, 15), (48, 98, 48), (139, 172, 15), (155, 188, 15)] },
    { name := "NES",
      colors := [(0, 0, 0), (255, 255, 255), (124, 124, 124), (188, 188, 188),
                 (0, 0, 252), (0, 120, 248), (104, 136, 252), (152, 120, 248),
                 (216, 40, 0), (248, 56, 0), (248, 120, 88), (248, 184, 0),
                 (0, 168, 0), (0, 184, 0), (88, 216, 84), (0, 168, 68)] },
    { name := "赛博朋克",
      colors := [(10, 10, 20), (20, 10, 40), (60, 0, 80), (120, 0, 120),
                 (200, 0, 200), (255, 0, 128), (0, 255, 255), (0, 200, 200),
                 (255, 255, 0), (255, 100, 0), (255, 255, 255)] },
    { name := "复古棕",
      colors := [(30, 20, 15), (60, 40, 25), (100, 70, 40), (140, 100, 60),
                 (180, 140, 90), (210, 180, 130), (235, 215, 180), (250, 240, 220)] } ]

/-- JavaScript `Math.round` on the rationals: `⌊x + 1/2⌋`. -/
def jsRound (q : ℚ) : ℤ := ⌊q + 1 / 2⌋

/-- `toGray(r, g, b) = 0.299*r + 0.587*g + 0.114*b` (`src/utils/mosaic.ts`). -/
def toGray (r g b : ℤ) : ℚ := 0.299 * (r : ℚ) + 0.587 * (g : ℚ) + 0.114 * (b : ℚ)

/-- `quantize(value, levels)`: `step = 255/(levels-1)`;
`Math.round(Math.round(value/step)*step)` (`src/utils/mosaic.ts`). -/
def quantize (value : ℚ) (levels : ℕ) : ℤ :=
  let step : ℚ := 255 / ((levels : ℚ) - 1)
  jsRound ((jsRound (value / step) : ℚ) * step)

/-- Squared Euclidean RGB distance `dr*dr + dg*dg + db*db`. -/
def distSq (r g b : ℤ) (c : RGB) : ℤ :=
  (r - c.1) ^ 2 + (g - c.2.1) ^ 2 + (b - c.2.2) ^ 2

/-- The loop of `closestPaletteColor`: running best entry and its (finite)
running minimum distance, updated only on strict improvement. -/
def closestGo (r g b : ℤ) (best : RGB) (minDist : ℤ) : List RGB → RGB
  | [] => best
  | c :: rest =>
    if distSq r g b c < minDist then closestGo r g b c (distSq r g b c) rest
    else closestGo r g b best minDist rest

/-- `closestPaletteColor(r, g, b, palette)` (`src/utils/mosaic.ts`).
The source initializes `best = palette[0]` and `minDist = Infinity`; the
first loop iteration therefore always installs `palette[0]` with its own
distance, which is what the embedding starts from.  An empty palette has no
`palette[0]` (JS yields `undefined`), modelled as `none`. -/
def closestPaletteColor (r g b : ℤ) (palette : List RGB) : Option RGB :=
  match palette with
  | [] => none
  | c :: rest => some (closestGo r g b c (distSq r g b c) rest)

/-- `mapColor(r, g, b, opts)` (`src/utils/mosaic.ts`): the `if / else if /
fallthrough` chain.  `grayscale` quantizes the luminance; `palette` with a
present palette snaps to the nearest entry; every other case — `color`
mode, and `palette` mode without a palette — quantizes each channel
independently.  The `getD` default is only reachable for an empty palette
colors list (where JS would yield `undefined`). -/
def mapColor (r g b : ℤ) (opts : MosaicOptions) : RGB :=
  match opts.colorMode, opts.palette with
  | .grayscale, _ =>
    let gray := quantize (toGray r g b) opts.levels
    (gray, gray, gray)
  | .palette, some p => (closestPaletteColor r g b p.colors).getD (0, 0, 0)
  | _, _ => (quantize r opts.levels, quantize g opts.levels, quantize b opts.levels)

/-- `getMosaicOpts` (`App.tsx`): the UI supplies
`palette: colorMode === 'palette' ? PALETTES[paletteIndex] : undefined`. -/
def getMosaicOpts (pixelSize levels : ℕ) (colorMode : ColorMode) (paletteIndex : ℕ) :
    MosaicOptions :=
  { pixelSize := pixelSize, colorMode := colorMode, levels := levels,
    palette := if colorMode = .palette then PALETTES.get? paletteIndex else none }

/-- `ASCII_CHARS = '@%#*+=-:. '` — the 10-character density ramp of the
shape-enabled engine, ordered dark → light. -/
def ASCII_CHARS : List Char := ['@', '%', '#', '*', '+', '=', '-', ':', '.', ' ']

/-- The glyph index of the `ascii` branch of `drawShape`:
`Math.floor((1 - brightness) * (ASCII_CHARS.length - 1))`, then clamped by
`Math.max(0, Math.min(charIdx, ASCII_CHARS.length - 1))`. -/
def asciiIndex (brightness : ℚ) : ℤ :=
  let charIdx : ℤ := ⌊(1 - brightness) * ((ASCII_CHARS.length : ℚ) - 1)⌋
  max 0 (min charIdx ((ASCII_CHARS.length : ℤ) - 1))

/-- The glyph the `ascii` branch of `drawShape` paints:
`ASCII_CHARS[clamped index]`.  The clamped index is always in range, so the
`getD` default is unreachable. -/
def asciiGlyph (brightness : ℚ) : Char :=
  ASCII_CHARS.getD (asciiIndex brightness).toNat ' '

/-- `ImageData`: width, height and the row-major RGBA byte sequence. -/
structure ImageData where
  width : ℕ
  height : ℕ
  data : List ℤ
deriving DecidableEq, Repr

/-- `interface GifFrame { imageData; delay }` (`src/utils/gif.ts`). -/
structure GifFrame where
  imageData : ImageData
  delay : ℕ
deriving DecidableEq, Repr

/-- The delay computation of `parseGif`: `(info.delay || 10) * 10` —
centiseconds to milliseconds, with the falsy declared delay `0` replaced by
`10` centiseconds before scaling. -/
def frameDelayMs (delayCs : ℕ) : ℕ :=
  (if delayCs = 0 then 10 else delayCs) * 10

/-- `parseGif` (`src/utils/gif.ts`), over the outputs of the external
`GifReader` (logical screen width/height and, per frame, the decoded RGBA
pixels with the declared centisecond delay): each frame gets a full-screen
buffer and the converted delay. -/
def parseGif (width height : ℕ) (frameInfos : List (List ℤ × ℕ)) : List GifFrame :=
  frameInfos.map (fun info =>
    { imageData := { width := width, height := height, data := info.1 },
      delay := frameDelayMs info.2 })

/-- The block origins visited by `for (v = 0; v < limit; v += step)`:
all multiples of `step` below `limit`. -/
def blockStarts (limit step : ℕ) : List ℕ :=
  (List.range ((limit + step - 1) / step)).map (· * step)

/-- The sample position of a block in `processFrame`:
`cx = min(bx + floor(ps/2), W-1)`, `cy = min(by + floor(ps/2), H-1)`,
`pos = (cy*W + cx)*4`. -/
def samplePos (W H ps bx byy : ℕ) : ℕ :=
  (min (byy + ps / 2) (H - 1) * W + min (bx + ps / 2) (W - 1)) * 4

/-- The pixels painted for one block in `processFrame`: outer loop
`px` from `bx` to `min(bx+ps, W)` exclusive, inner loop `py` from `byy` to
`min(byy+ps, H)` exclusive. -/
def blockPixels (W H ps bx byy : ℕ) : List (ℕ × ℕ) :=
  (List.range' bx (min (bx + ps) W - bx)).flatMap (fun px =>
    (List.range' byy (min (byy + ps) H - byy)).map (fun py => (px, py)))

/-- One RGBA store of `processFrame`'s inner loop:
`dst[idx..idx+3] := (r, g, b, 255)` at `idx = (py*W + px)*4`. -/
def writePixel (W : ℕ) (r g b : ℤ) (px py : ℕ) (d : List ℤ) : List ℤ :=
  let idx := (py * W + px) * 4
  (((d.set idx r).set (idx + 1) g).set (idx + 2) b).set (idx + 3) 255

/-- Paint one block: write the mapped color to every pixel of the clipped
block region. -/
def paintBlock (W H ps : ℕ) (r g b : ℤ) (bx byy : ℕ) (d : List ℤ) : List ℤ :=
  (blockPixels W H ps bx byy).foldl (fun acc p => writePixel W r g b p.1 p.2 acc) d

/-- The initial output buffer of `processFrame`: `new ImageData(W, H)` is
zero-filled, then the first loop sets every pixel to opaque black
`(0,0,0,255)`. -/
def initData (W H : ℕ) : List ℤ :=
  (List.range (W * H * 4)).map (fun i => if i % 4 = 3 then 255 else 0)

/-- `processFrame(imageData, options)` (`src/utils/mosaic.ts`): allocate an
output buffer of identical dimensions, pre-fill it with opaque black, then
for every block origin sample the clamped center pixel, map its color, and
paint the clipped block region. -/
def processFrame (img : ImageData) (opts : MosaicOptions) : ImageData :=
  let W := img.width
  let H := img.height
  let ps := opts.pixelSize
  let data :=
    (blockStarts W ps).foldl (fun d bx =>
      (blockStarts H ps).foldl (fun d byy =>
        let pos := samplePos W H ps bx byy
        let c := mapColor (img.data.getD pos 0) (img.data.getD (pos + 1) 0)
          (img.data.getD (pos + 2) 0) opts
        paintBlock W H ps c.1 c.2.1 c.2.2 bx byy d) d)
      (initData W H)
  { width := W, height := H, data := data }

/-! ## Helper lemmas -/

theorem jsRound_nonneg {q : ℚ} (h : 0 ≤ q) : 0 ≤ jsRound q := by
  have : ((0 : ℤ) : ℚ) ≤ q + 1 / 2 := by push_cast; linarith
  exact Int.le_floor.mpr this

theorem jsRound_le {q : ℚ} {c : ℤ} (h : q ≤ (c : ℚ)) : jsRound q ≤ c := by
  have hlt : q + 1 / 2 < ((c + 1 : ℤ) : ℚ) := by push_cast; linarith
  have := Int.floor_lt.mpr hlt
  simp only [jsRound]
  omega

/-! ## Claims -/

/-- C9: `mapColor` with `colorMode = 'palette'` but no palette supplied
returns exactly the same triple as `mapColor` with `colorMode = 'color'`
and the same levels: the missing palette is silently ignored. -/
theorem mapColor_palette_absent_eq_color (r g b : ℤ) (ps lv : ℕ) :
    mapColor r g b ⟨ps, .palette, lv, none⟩ = mapColor r g b ⟨ps, .color, lv, none⟩ := rfl

/-- C1 counterexample: with `colorMode = 'palette'` and no palette, the
pipeline does not surface any configuration error — `mapColor` silently
substitutes the color-mode per-channel quantization, returning the
concrete triple `(0, 255, 0)` for input `(100, 200, 30)` at `levels = 2`. -/
theorem mapColor_missing_palette_ce :
    mapColor 100 200 30 ⟨8, .palette, 2, none⟩ = mapColor 100 200 30 ⟨8, .color, 2, none⟩ ∧
    mapColor 100 200 30 ⟨8, .palette, 2, none⟩ = (0, 255, 0) := by
  refine ⟨rfl, ?_⟩
  show (quantize 100 2, quantize 200 2, quantize 30 2) = (0, 255, 0)
  norm_num [quantize, jsRound]

/-- C1 amended: if `MosaicOptions` has `colorMode = 'palette'` but no
palette is supplied, no configuration error is surfaced; `mapColor`
silently falls back to the color-mode per-channel quantization.  (The UI
caller `getMosaicOpts` always supplies a built-in palette when palette
mode is selected, so the fallback is not reachable from the UI.) -/
theorem mapColor_missing_palette_fallback :
    (∀ (r g b : ℤ) (ps lv : ℕ),
      mapColor r g b ⟨ps, .palette, lv, none⟩ = (quantize r lv, quantize g lv, quantize b lv)) ∧
    (∀ ps lv pi : ℕ, pi < PALETTES.length → ((getMosaicOpts ps lv .palette pi).palette).isSome) := by
  refine ⟨fun r g b ps lv => rfl, ?_⟩
  intro ps lv pi hpi
  simp [getMosaicOpts, List.get?_eq_getElem?, hpi]

/-- C1 witness: the fallback at a concrete input, and the UI supplying the
first built-in palette. -/
theorem mapColor_missing_palette_fallback_witness :
    mapColor 100 200 30 ⟨8, .palette, 2, none⟩ = (quantize 100 2, quantize 200 2, quantize 30 2) ∧
    ((getMosaicOpts 8 2 .palette 0).palette).isSome :=
  ⟨mapColor_missing_palette_fallback.1 100 200 30 8 2,
   mapColor_missing_palette_fallback.2 8 2 0 (by norm_num [PALETTES])⟩

/-- C6: a decoded frame delay in milliseconds is the declared centisecond
delay times 10, except that a declared delay of 0 becomes the 100 ms
default; the declared delays `[0, 50, 200]` decode to `[100, 500, 2000]`. -/
theorem parseGif_delay_conversion :
    (∀ cs : ℕ, frameDelayMs cs = if cs = 0 then 100 else cs * 10) ∧
    (∀ (W H : ℕ) (infos : List (List ℤ × ℕ)),
      (parseGif W H infos).map GifFrame.delay = infos.map (fun i => frameDelayMs i.2)) ∧
    (parseGif 1 1 [([], 0), ([], 50), ([], 200)]).map GifFrame.delay = [100, 500, 2000] := by
  refine ⟨?_, ?_, rfl⟩
  · intro cs
    by_cases h : cs = 0 <;> simp [frameDelayMs, h]
  · intro W H infos
    simp [parseGif]

/-- C10: every frame returned by the GIF parser has a delay that is a
multiple of 10 ms and at least 10 ms — never 0. -/
theorem parseGif_delay_pos (W H : ℕ) (infos : List (List ℤ × ℕ)) (f : GifFrame)
    (hf : f ∈ parseGif W H infos) : 10 ∣ f.delay ∧ 10 ≤ f.delay := by
  simp only [parseGif, List.mem_map] at hf
  obtain ⟨info, -, rfl⟩ := hf
  simp only [frameDelayMs]
  by_cases h : info.2 = 0 <;> simp [h] <;> omega

/-- C10 witness: the frame decoded from a declared delay of 0. -/
theorem parseGif_delay_pos_witness :
    10 ∣ (GifFrame.mk ⟨1, 1, []⟩ 100).delay ∧ 10 ≤ (GifFrame.mk ⟨1, 1, []⟩ 100).delay :=
  parseGif_delay_pos 1 1 [([], 0)] _ (by simp [parseGif, frameDelayMs])

/-- C2 counterexample: the claim fails on the code in two ways.  At
brightness 1.0 the selected glyph is `'@'` — the ramp's darkest character,
not the lightest (`' '` or `'.'`); and the index formula is `floor`, not
`round`: at brightness `1/18` the code selects index 8 while
`round((1 − 1/18) × 9) = 9`. -/
theorem asciiGlyph_claim_ce :
    asciiGlyph 1 = '@' ∧ ('@' ≠ ' ' ∧ '@' ≠ '.') ∧
    asciiIndex (1 / 18) = 8 ∧ jsRound ((1 - 1 / 18) * 9) = 9 := by
  refine ⟨?_, ⟨by decide, by decide⟩, ?_, ?_⟩
  · norm_num [asciiGlyph, asciiIndex, ASCII_CHARS]
  · norm_num [asciiIndex, ASCII_CHARS]
  · norm_num [jsRound]

/-- C2 amended: for the Ascii shape the glyph index is
`floor((1 − brightness) × (rampLength − 1))` clamped to a valid index (the
clamp is the identity for brightness in [0,1]); brightness 1.0 selects the
ramp's first character `'@'` (the densest glyph) and brightness 0.0 selects
the last character `' '` (the lightest). -/
theorem asciiGlyph_spec :
    (∀ b : ℚ, 0 ≤ b → b ≤ 1 →
      asciiIndex b = ⌊(1 - b) * 9⌋ ∧ 0 ≤ asciiIndex b ∧ asciiIndex b ≤ 9) ∧
    asciiGlyph 1 = '@' ∧ asciiGlyph 0 = ' ' := by
  refine ⟨?_, ?_, ?_⟩
  · intro b hb0 hb1
    have hF0 : 0 ≤ ⌊(1 - b) * 9⌋ := Int.floor_nonneg.mpr (by nlinarith)
    have hF9 : ⌊(1 - b) * 9⌋ ≤ 9 := by
      have h9 : (1 - b) * 9 ≤ ((9 : ℤ) : ℚ) := by push_cast; nlinarith
      calc ⌊(1 - b) * 9⌋ ≤ ⌊((9 : ℤ) : ℚ)⌋ := Int.floor_le_floor h9
        _ = 9 := Int.floor_intCast 9
    have hidx : asciiIndex b = max 0 (min ⌊(1 - b) * 9⌋ 9) := by
      simp only [asciiIndex, ASCII_CHARS]
      norm_num
    rw [hidx]
    omega
  · norm_num [asciiGlyph, asciiIndex, ASCII_CHARS]
  · norm_num [asciiGlyph, asciiIndex, ASCII_CHARS]
    rfl

/-- C2 witness: the amended index characterization at brightness 1/2. -/
theorem asciiGlyph_spec_witness :
    asciiIndex (1 / 2) = ⌊(1 - (1 / 2 : ℚ)) * 9⌋ ∧
    0 ≤ asciiIndex (1 / 2) ∧ asciiIndex (1 / 2) ≤ 9 :=
  asciiGlyph_spec.1 (1 / 2) (by norm_num) (by norm_num)

/-- C4: grayscale mapping computes the luminance
`0.299·r + 0.587·g + 0.114·b`, quantizes it with `step = 255/(L−1)` as
`round(round(value/step)·step)`, and repeats the quantized gray on all
three channels. -/
theorem mapColor_grayscale_spec (r g b : ℤ) (ps L : ℕ)
    (hr0 : 0 ≤ r) (hr : r ≤ 255) (hg0 : 0 ≤ g) (hg : g ≤ 255)
    (hb0 : 0 ≤ b) (hb : b ≤ 255) (h2 : 2 ≤ L) (h8 : L ≤ 8) :
    mapColor r g b ⟨ps, .grayscale, L, none⟩ =
      (jsRound ((jsRound ((0.299 * (r : ℚ) + 0.587 * (g : ℚ) + 0.114 * (b : ℚ)) /
            (255 / ((L : ℚ) - 1))) : ℚ) * (255 / ((L : ℚ) - 1))),
       jsRound ((jsRound ((0.299 * (r : ℚ) + 0.587 * (g : ℚ) + 0.114 * (b : ℚ)) /
            (255 / ((L : ℚ) - 1))) : ℚ) * (255 / ((L : ℚ) - 1))),
       jsRound ((jsRound ((0.299 * (r : ℚ) + 0.587 * (g : ℚ) + 0.114 * (b : ℚ)) /
            (255 / ((L : ℚ) - 1))) : ℚ) * (255 / ((L : ℚ) - 1)))) := rfl

/-- C4 witness: a sampled pure-red pixel `(255,0,0)` at `levels = 2` maps
to black `(0,0,0)`. -/
theorem mapColor_grayscale_spec_witness :
    mapColor 255 0 0 ⟨4, .grayscale, 2, none⟩ = (0, 0, 0) := by
  have h := mapColor_grayscale_spec 255 0 0 4 2 (by norm_num) (by norm_num) (by norm_num)
    (by norm_num) (by norm_num) (by norm_num) (by norm_num) (by norm_num)
  rw [h]
  norm_num [jsRound]

/-- C8: grayscale quantization is idempotent for every value in [0,255]
and every levels value in [2,8]. -/
theorem quantize_idem (v : ℚ) (L : ℕ) (h0 : 0 ≤ v) (h255 : v ≤ 255)
    (h2 : 2 ≤ L) (h8 : L ≤ 8) :
    quantize ((quantize v L : ℤ) : ℚ) L = quantize v L := by
  have hL1 : (1 : ℚ) ≤ (L : ℚ) - 1 := by
    have : (2 : ℚ) ≤ (L : ℚ) := by exact_mod_cast h2
    linarith
  have hsteppos : 0 < 255 / ((L : ℚ) - 1) := by
    apply div_pos <;> linarith
  have hQ : quantize v L =
      jsRound ((jsRound (v / (255 / ((L : ℚ) - 1))) : ℚ) * (255 / ((L : ℚ) - 1))) := rfl
  rw [hQ]
  have hk0 : 0 ≤ jsRound (v / (255 / ((L : ℚ) - 1))) :=
    jsRound_nonneg (div_nonneg h0 (le_of_lt hsteppos))
  have hkle : jsRound (v / (255 / ((L : ℚ) - 1))) ≤ (L : ℤ) - 1 := by
    apply jsRound_le
    have hcan : ((L : ℚ) - 1) * (255 / ((L : ℚ) - 1)) = 255 := by
      field_simp
    push_cast
    rw [div_le_iff hsteppos, hcan]
    exact h255
  obtain ⟨k, hkeq⟩ : ∃ k, jsRound (v / (255 / ((L : ℚ) - 1))) = k := ⟨_, rfl⟩
  rw [hkeq] at hk0 hkle ⊢
  interval_cases L <;>
    · norm_num at hkle
      interval_cases k <;> norm_num [quantize, jsRound]

/-- C8 witness: idempotence at `v = 100`, `levels = 4`. -/
theorem quantize_idem_witness :
    quantize ((quantize 100 4 : ℤ) : ℚ) 4 = quantize 100 4 :=
  quantize_idem 100 4 (by norm_num) (by norm_num) (by norm_num) (by norm_num)

/-- Invariant of the `closestPaletteColor` loop: starting from `best` with
its own distance as the running minimum, the result minimizes the distance
over `best` and the remaining list, and it is either `best` itself or the
first strictly-better entry of the remaining list. -/
theorem closestGo_spec (r g b : ℤ) (rest : List RGB) : ∀ best : RGB,
    (distSq r g b (closestGo r g b best (distSq r g b best) rest) ≤ distSq r g b best ∧
      ∀ c ∈ rest, distSq r g b (closestGo r g b best (distSq r g b best) rest) ≤ distSq r g b c) ∧
    (closestGo r g b best (distSq r g b best) rest = best ∨
      ∃ i, ∃ hi : i < rest.length,
        closestGo r g b best (distSq r g b best) rest = rest.get ⟨i, hi⟩ ∧
        distSq r g b (rest.get ⟨i, hi⟩) < distSq r g b best ∧
        ∀ c ∈ rest.take i, distSq r g b (rest.get ⟨i, hi⟩) < distSq r g b c) := by
  induction rest with
  | nil => exact fun best => ⟨⟨le_refl _, by simp⟩, Or.inl rfl⟩
  | cons c rest ih =>
    intro best
    by_cases h : distSq r g b c < distSq r g b best
    · have hred : closestGo r g b best (distSq r g b best) (c :: rest) =
          closestGo r g b c (distSq r g b c) rest := by
        simp [closestGo, h]
      obtain ⟨⟨hm1, hm2⟩, hpos⟩ := ih c
      refine ⟨⟨?_, ?_⟩, ?_⟩
      · rw [hred]
        exact le_of_lt (lt_of_le_of_lt hm1 h)
      · rw [hred]
        intro c' hc'
        rcases List.mem_cons.mp hc' with rfl | hc'
        · exact hm1
        · exact hm2 c' hc'
      · rw [hred]
        right
        rcases hpos with heq | ⟨i, hi, heq, hlt, htake⟩
        · exact ⟨0, by simp, by simpa using heq, by simpa using h, by simp⟩
        · refine ⟨i + 1, by simpa using Nat.succ_lt_succ hi, by simpa using heq, ?_, ?_⟩
          · simpa using lt_trans hlt h
          · intro x hx
            rw [List.take_succ_cons] at hx
            rcases List.mem_cons.mp hx with rfl | hx
            · simpa using hlt
            · simpa using htake x hx
    · have hred : closestGo r g b best (distSq r g b best) (c :: rest) =
          closestGo r g b best (distSq r g b best) rest := by
        simp [closestGo, h]
      obtain ⟨⟨hm1, hm2⟩, hpos⟩ := ih best
      have hcb : distSq r g b best ≤ distSq r g b c := not_lt.mp h
      refine ⟨⟨?_, ?_⟩, ?_⟩
      · rw [hred]
        exact hm1
      · rw [hred]
        intro c' hc'
        rcases List.mem_cons.mp hc' with rfl | hc'
        · exact le_trans hm1 hcb
        · exact hm2 c' hc'
      · rw [hred]
        rcases hpos with heq | ⟨i, hi, heq, hlt, htake⟩
        · exact Or.inl heq
        · right
          refine ⟨i + 1, by simpa using Nat.succ_lt_succ hi, by simpa using heq, ?_, ?_⟩
          · simpa using hlt
          · intro x hx
            rw [List.take_succ_cons] at hx
            rcases List.mem_cons.mp hx with rfl | hx
            · simpa using lt_of_lt_of_le hlt hcb
            · simpa using htake x hx

/-- C5: for every non-empty palette, `closestPaletteColor` returns the
entry minimizing the squared Euclidean RGB distance, ties resolved to the
first minimal entry in palette order (every strictly-earlier entry has
strictly larger distance); and when the palette contains the exact input
color, that entry is selected.  Determinism is immediate: the embedding is
a pure function of its arguments. -/
theorem closestPaletteColor_spec (r g b : ℤ) (p : List RGB) (hp : p ≠ []) :
    (∃ i, ∃ hi : i < p.length,
      closestPaletteColor r g b p = some (p.get ⟨i, hi⟩) ∧
      (∀ c ∈ p, distSq r g b (p.get ⟨i, hi⟩) ≤ distSq r g b c) ∧
      (∀ c ∈ p.take i, distSq r g b (p.get ⟨i, hi⟩) < distSq r g b c)) ∧
    ((r, g, b) ∈ p → closestPaletteColor r g b p = some (r, g, b)) := by
  obtain ⟨c, rest, rfl⟩ : ∃ c rest, p = c :: rest := by
    cases p with
    | nil => exact absurd rfl hp
    | cons c rest => exact ⟨c, rest, rfl⟩
  have hclosest : closestPaletteColor r g b (c :: rest) =
      some (closestGo r g b c (distSq r g b c) rest) := rfl
  obtain ⟨⟨hm1, hm2⟩, hpos⟩ := closestGo_spec r g b rest c
  have main : ∃ i, ∃ hi : i < (c :: rest).length,
      closestPaletteColor r g b (c :: rest) = some ((c :: rest).get ⟨i, hi⟩) ∧
      (∀ c' ∈ c :: rest, distSq r g b ((c :: rest).get ⟨i, hi⟩) ≤ distSq r g b c') ∧
      (∀ c' ∈ (c :: rest).take i, distSq r g b ((c :: rest).get ⟨i, hi⟩) < distSq r g b c') := by
    rcases hpos with heq | ⟨i, hi, heq, hlt, htake⟩
    · refine ⟨0, by simp, ?_, ?_, by simp⟩
      · rw [hclosest, heq]
        simp
      · intro c' hc'
        rcases List.mem_cons.mp hc' with rfl | hc'
        · simpa [heq] using hm1
        · simpa [heq] using hm2 c' hc'
    · refine ⟨i + 1, by simpa using Nat.succ_lt_succ hi, ?_, ?_, ?_⟩
      · rw [hclosest, heq]
        simp
      · intro c' hc'
        rcases List.mem_cons.mp hc' with rfl | hc'
        · simpa [heq] using hm1
        · simpa [heq] using hm2 c' hc'
      · intro x hx
        rw [List.take_succ_cons] at hx
        rcases List.mem_cons.mp hx with rfl | hx
        · simpa using hlt
        · simpa using htake x hx
  refine ⟨main, ?_⟩
  intro hmem
  obtain ⟨i, hi, heq, hmin, -⟩ := main
  have h0 : distSq r g b ((c :: rest).get ⟨i, hi⟩) ≤ 0 := by
    have := hmin (r, g, b) hmem
    simpa [distSq] using this
  rw [heq]
  rcases hget : (c :: rest).get ⟨i, hi⟩ with ⟨x, yz⟩
  rcases yz with ⟨y, z⟩
  rw [hget] at h0
  simp only [distSq] at h0
  have hx : r - x = 0 := by nlinarith [sq_nonneg (r - x), sq_nonneg (g - y), sq_nonneg (b - z)]
  have hy : g - y = 0 := by nlinarith [sq_nonneg (r - x), sq_nonneg (g - y), sq_nonneg (b - z)]
  have hz : b - z = 0 := by nlinarith [sq_nonneg (r - x), sq_nonneg (g - y), sq_nonneg (b - z)]
  have : x = r ∧ y = g ∧ z = b := by omega
  rw [this.1, this.2.1, this.2.2]

theorem foldl_length_inv {α : Type} (f : List ℤ → α → List ℤ)
    (hf : ∀ d a, (f d a).length = d.length) :
    ∀ (xs : List α) (d : List ℤ), (xs.foldl f d).length = d.length := by
  intro xs
  induction xs with
  | nil => intro d; rfl
  | cons x xs ih => intro d; rw [List.foldl_cons, ih, hf]

theorem writePixel_length (W : ℕ) (r g b : ℤ) (px py : ℕ) (d : List ℤ) :
    (writePixel W r g b px py d).length = d.length := by
  simp [writePixel]

theorem paintBlock_length (W H ps : ℕ) (r g b : ℤ) (bx byy : ℕ) (d : List ℤ) :
    (paintBlock W H ps r g b bx byy d).length = d.length := by
  unfold paintBlock
  exact foldl_length_inv (fun acc p => writePixel W r g b p.1 p.2 acc)
    (fun d p => writePixel_length W r g b p.1 p.2 d) (blockPixels W H ps bx byy) d

theorem initData_length (W H : ℕ) : (initData W H).length = W * H * 4 := by
  simp [initData]

theorem blockStarts_lt (limit step : ℕ) (hs : 0 < step) :
    ∀ x ∈ blockStarts limit step, x < limit := by
  intro x hx
  simp only [blockStarts, List.mem_map, List.mem_range] at hx
  obtain ⟨k, hk, rfl⟩ := hx
  have h1 : (k + 1) * step ≤ limit + step - 1 :=
    (Nat.le_div_iff_mul_le hs).mp (Nat.succ_le_of_lt hk)
  rw [Nat.succ_mul] at h1
  omega

/-- Any in-range cell's RGBA indices stay below the buffer length. -/
theorem cell_bound (W H cx cy : ℕ) (hcx : cx < W) (hcy : cy < H) :
    (cy * W + cx) * 4 + 3 < W * H * 4 := by
  have h2 : (cy + 1) * W ≤ H * W := Nat.mul_le_mul_right W hcy
  rw [Nat.succ_mul] at h2
  have h3 : cy * W + (cx + 1) ≤ cy * W + W := Nat.add_le_add_left hcx _
  have h4 : cy * W + cx + 1 ≤ H * W := by
    calc cy * W + cx + 1 = cy * W + (cx + 1) := by omega
      _ ≤ cy * W + W := h3
      _ ≤ H * W := h2
  have h5 : (cy * W + cx + 1) * 4 ≤ H * W * 4 := Nat.mul_le_mul_right 4 h4
  rw [Nat.mul_comm W H]
  linarith

/-- The clamped sample position reads channel bytes `pos`, `pos+1`,
`pos+2`, all inside the source buffer. -/
theorem samplePos_bound (W H ps bx byy : ℕ) (hW : 0 < W) (hH : 0 < H) :
    samplePos W H ps bx byy + 2 < W * H * 4 := by
  have hcx : min (bx + ps / 2) (W - 1) < W := by
    have := min_le_right (bx + ps / 2) (W - 1)
    omega
  have hcy : min (byy + ps / 2) (H - 1) < H := by
    have := min_le_right (byy + ps / 2) (H - 1)
    omega
  have := cell_bound W H (min (bx + ps / 2) (W - 1)) (min (byy + ps / 2) (H - 1)) hcx hcy
  simp only [samplePos]
  linarith

/-- Every pixel painted for a block lies inside `[0,W) × [0,H)` and its
RGBA indices stay below the buffer length. -/
theorem blockPixels_bound (W H ps bx byy : ℕ) :
    ∀ p ∈ blockPixels W H ps bx byy,
      p.1 < W ∧ p.2 < H ∧ (p.2 * W + p.1) * 4 + 3 < W * H * 4 := by
  intro p hp
  simp only [blockPixels, List.mem_flatMap, List.mem_map, List.mem_range'_1] at hp
  obtain ⟨px, ⟨hpx1, hpx2⟩, py, ⟨hpy1, hpy2⟩, rfl⟩ := hp
  have hminW : min (bx + ps) W ≤ W := min_le_right _ _
  have hminH : min (byy + ps) H ≤ H := min_le_right _ _
  have hpxW : px < W := by omega
  have hpyH : py < H := by omega
  exact ⟨hpxW, hpyH, cell_bound W H px py hpxW hpyH⟩

/-- C7: the frame transform's output buffer has exactly the source's
dimensions and byte length; for every block origin the clamped sample
position stays at most `(W−1, H−1)` and its channel reads stay inside the
source buffer; and every painted pixel of every (edge-clipped) block lies
within `[0,W) × [0,H)`, with all four channel writes inside the output
buffer. -/
theorem processFrame_bounds (img : ImageData) (opts : MosaicOptions)
    (hps2 : 2 ≤ opts.pixelSize) (hps50 : opts.pixelSize ≤ 50)
    (hW : 0 < img.width) (hH : 0 < img.height)
    (hlen : img.data.length = img.width * img.height * 4) :
    (processFrame img opts).width = img.width ∧
    (processFrame img opts).height = img.height ∧
    (processFrame img opts).data.length = img.width * img.height * 4 ∧
    (∀ bx ∈ blockStarts img.width opts.pixelSize,
      ∀ byy ∈ blockStarts img.height opts.pixelSize,
        min (bx + opts.pixelSize / 2) (img.width - 1) ≤ img.width - 1 ∧
        min (byy + opts.pixelSize / 2) (img.height - 1) ≤ img.height - 1 ∧
        samplePos img.width img.height opts.pixelSize bx byy + 2 < img.data.length ∧
        ∀ p ∈ blockPixels img.width img.height opts.pixelSize bx byy,
          p.1 < img.width ∧ p.2 < img.height ∧
          (p.2 * img.width + p.1) * 4 + 3 < (processFrame img opts).data.length) := by
  have hdatalen : (processFrame img opts).data.length = img.width * img.height * 4 := by
    simp only [processFrame]
    rw [foldl_length_inv _ (fun d bx =>
      foldl_length_inv _ (fun d byy => paintBlock_length _ _ _ _ _ _ _ _ _) _ d)]
    exact initData_length _ _
  refine ⟨rfl, rfl, hdatalen, ?_⟩
  intro bx hbx byy hbyy
  refine ⟨min_le_right _ _, min_le_right _ _, ?_, ?_⟩
  · rw [hlen]
    exact samplePos_bound img.width img.height opts.pixelSize bx byy hW hH
  · intro p hp
    have h := blockPixels_bound img.width img.height opts.pixelSize bx byy p hp
    rw [hdatalen]
    exact h

/-- C7 witness: a 4×4 buffer with blockSize 4 keeps its dimensions and
byte length. -/
theorem processFrame_bounds_witness :
    (processFrame ⟨4, 4, List.replicate 64 0⟩ ⟨4, .grayscale, 2, none⟩).width = 4 ∧
    (processFrame ⟨4, 4, List.replicate 64 0⟩ ⟨4, .grayscale, 2, none⟩).height = 4 ∧
    (processFrame ⟨4, 4, List.replicate 64 0⟩ ⟨4, .grayscale, 2, none⟩).data.length = 64 := by
  have h := processFrame_bounds ⟨4, 4, List.replicate 64 0⟩ ⟨4, .grayscale, 2, none⟩
    (by norm_num) (by norm_num) (by norm_num) (by norm_num) (by simp)
  exact ⟨h.1, h.2.1, h.2.2.1⟩

/-- C5 witness: the Game Boy palette entry `(155,188,15)` maps to itself. -/
theorem closestPaletteColor_spec_witness :
    closestPaletteColor 155 188 15
      [(15, 56, 15), (48, 98, 48), (139, 172, 15), (155, 188, 15)] =
      some (155, 188, 15) :=
  (closestPaletteColor_spec 155 188 15
    [(15, 56, 15), (48, 98, 48), (139, 172, 15), (155, 188, 15)]
    (by simp)).2 (by simp)
